import Mathlib

/-!
Verification of the `tt` time-tracker core (ahui2016/ctt).

Shallow embedding of the Python sources `src/tt/model.py` and `src/tt/util.py`.
Python machine-free integers are modelled by `Int` (timestamps, lap lengths,
accumulated work) or `Nat` (byte values, lengths); fallible operations return
`Option` or `Except`.  The `db` module and the `Event.split/pause/resume/stop`
methods are not present in the source tree (only their callers in `util.py`
are), so those are modelled from the specification and marked as such in their
doc comments.
-/

namespace CTT

/-- `EventStatus` enum from `model.py`: `Running | Pausing | Stopped`. -/
inductive EventStatus where
  | Running
  | Pausing
  | Stopped
deriving DecidableEq, Repr

/-- `Enum.name` of an `EventStatus` member, as used by `Event.to_dict`. -/
def EventStatus.nameStr : EventStatus → String
  | .Running => "Running"
  | .Pausing => "Pausing"
  | .Stopped => "Stopped"

/-- `EventStatus[s]` lookup by member name (raises `KeyError` in Python,
hence `Option` here), as used by `Event.__init__`. -/
def EventStatus.ofName : String → Option EventStatus
  | "Running" => some .Running
  | "Pausing" => some .Pausing
  | "Stopped" => some .Stopped
  | _ => none

/-- `LapName` enum from `model.py`: `Split | Pause`. -/
inductive LapName where
  | Split
  | Pause
deriving DecidableEq, Repr

/-- `Enum.name` of a `LapName` member; the lap tuples store this string. -/
def LapName.nameStr : LapName → String
  | .Split => "Split"
  | .Pause => "Pause"

/-- `Config` from `model.py`: thresholds in minutes
(`split_min`, `pause_min`, `pause_max`). -/
structure Config where
  split_min : Int
  pause_min : Int
  pause_max : Int
deriving DecidableEq, Repr

/-- `default_cfg()` from `model.py`. -/
def default_cfg : Config :=
  { split_min := 5, pause_min := 5, pause_max := 60 }

/-- Error taxonomy.  The Python code returns bilingual `MultiText` messages;
only the identity of each error matters for the claims, so errors are
modelled as tags. -/
inductive TTError where
  | invalidName
  | noEvent
  | stoppedEvent
  | notStopped
  | notFound
  | invalidState
deriving DecidableEq, Repr

/-- One character of the forbid pattern `NameForbidPattern = [^_0-9a-zA-Z\-]`
from `model.py`: true exactly when the regex class matches the character. -/
def nameForbidMatch (c : Char) : Bool :=
  !(c = '_' || ('0' ≤ c && c ≤ '9') || ('a' ≤ c && c ≤ 'z')
    || ('A' ≤ c && c ≤ 'Z') || c = '-')

/-- `check_name` from `model.py`: OK iff `NameForbidPattern.search(name)`
finds no forbidden character. -/
def check_name (name : String) : Except TTError Unit :=
  if name.data.any nameForbidMatch then .error .invalidName else .ok ()

/-- The claim's character class `[-_0-9a-zA-Z]`, written from the spec's
words (positively) to compare with the code's complemented class. -/
def isAllowedChar (c : Char) : Bool :=
  c = '-' || c = '_' || ('0' ≤ c && c ≤ '9') || ('a' ≤ c && c ≤ 'z')
    || ('A' ≤ c && c ≤ 'Z')

/-- The spec's name pattern `[-_0-9a-zA-Z]+` (one or more allowed
characters), written from the spec's words for the refinement comparison. -/
def matchesNamePlus (s : String) : Bool :=
  !s.data.isEmpty && s.data.all isAllowedChar

/-- `Task` dataclass from `model.py` (`alias` is a reserved word in Lean,
so the field is spelled `aliasStr`). -/
structure Task where
  id : String
  name : String
  aliasStr : String
deriving DecidableEq, Repr

/-- The dict argument of `new_task`: key `name` is required, `id` and
`alias` are optional (`d.get`). -/
structure TaskDict where
  id : Option String
  name : String
  aliasStr : Option String
deriving DecidableEq, Repr

/-- `new_task(d)` from `model.py`.  The random draw of `rand_id()` is passed
in as `rid` (it is only used when the dict carries no `id`). -/
def new_task (rid : String) (d : TaskDict) : Except TTError Task :=
  let t_id := d.id.getD rid
  let name := d.name
  let al := d.aliasStr.getD ""
  let task : Task := ⟨t_id, name, al⟩
  match check_name name with
  | .ok _ => .ok task
  | .error e => .error e

/-- The digit alphabet of `base_repr` from `model.py`. -/
def digitsChars : List Char := "0123456789abcdefghijklmnopqrstuvwxyz".data

/-- The `while num:` loop of `base_repr`: digits of `num` in base `base`,
least significant first.  The `base < 2` guard only mirrors the `ValueError`
branch of the source (the loop is never entered with such a base there). -/
def baseRepLoop (base : ℕ) (num : ℕ) : List Char :=
  if h : num = 0 ∨ base < 2 then []
  else digitsChars.getD (num % base) '0' :: baseRepLoop base (num / base)
termination_by num
decreasing_by
  simp only [not_or, not_lt] at h
  exact Nat.div_lt_self (Nat.pos_of_ne_zero h.1) (by omega)

/-- `base_repr(number, base, padding)` from `model.py`; `none` models the
`ValueError` raises for bases outside `2..36`. -/
def base_repr (number : Int) (base : ℕ) (padding : ℕ) : Option String :=
  if 36 < base then none
  else if base < 2 then none
  else
    let num := number.natAbs
    let res := baseRepLoop base num
    let res := res ++ List.replicate padding '0'
    let res := if number < 0 then res ++ ['-'] else res
    some (if res = [] then "0" else String.mk res.reverse)

/-- Python `int(s, 36)` on a lowercase base-36 literal, as used by
`rand_id` for its bounds. -/
def int36 (s : String) : ℕ :=
  s.data.foldl (fun acc c => acc * 36 + digitsChars.indexOf c) 0

/-- `rand_id()` from `model.py`, as a function of the value drawn by
`randrange(n_min, n_max + 1)`. -/
def rand_id (n_rand : ℕ) : Option String :=
  base_repr (Int.ofNat n_rand) 36 0

/-- `date_id()` from `model.py`, as a function of the current timestamp. -/
def date_id (t : Int) : Option String :=
  base_repr t 36 0

/-! ## The msgpack wire format used by `pack` / `unpack`

`pack`/`unpack` in `model.py` delegate to the external `msgpack` library
(`packb` / `unpackb(data, use_list=False)`), which is not part of the
repository.  The formats that lap blobs exercise — integers, UTF-8 strings
and arrays — are modelled here from the msgpack format specification.
Bytes are modelled as natural numbers below 256. -/

/-- Modelled from the spec: UTF-8 encoding of one Unicode scalar value
(`str` payloads inside `msgpack.packb`; the library is external to src/). -/
def utf8EncodeChar (c : Char) : List ℕ :=
  let n := c.toNat
  if n < 0x80 then [n]
  else if n < 0x800 then [0xc0 + n / 64, 0x80 + n % 64]
  else if n < 0x10000 then [0xe0 + n / 4096, 0x80 + n / 64 % 64, 0x80 + n % 64]
  else [0xf0 + n / 262144, 0x80 + n / 4096 % 64, 0x80 + n / 64 % 64, 0x80 + n % 64]

/-- Modelled from the spec: UTF-8 encoding of a whole string. -/
def utf8Encode (s : String) : List ℕ :=
  (s.data.map utf8EncodeChar).flatten

/-- Modelled from the spec: decode one UTF-8-encoded scalar value from the
front of a byte list, returning the code point and the remaining bytes. -/
def utf8DecodeChar : List ℕ → Option (ℕ × List ℕ)
  | [] => none
  | b :: bs =>
    if b < 0x80 then some (b, bs)
    else if b < 0xc0 then none
    else if b < 0xe0 then
      match bs with
      | b1 :: r => some ((b - 0xc0) * 64 + (b1 - 0x80), r)
      | [] => none
    else if b < 0xf0 then
      match bs with
      | b1 :: b2 :: r => some ((b - 0xe0) * 4096 + (b1 - 0x80) * 64 + (b2 - 0x80), r)
      | _ => none
    else if b < 0xf8 then
      match bs with
      | b1 :: b2 :: b3 :: r =>
          some ((b - 0xf0) * 262144 + (b1 - 0x80) * 4096 + (b2 - 0x80) * 64
                + (b3 - 0x80), r)
      | _ => none
    else none

/-- Modelled from the spec: UTF-8 decoding loop; `fuel` bounds the number of
decoded characters (each consumes at least one byte). -/
def utf8DecodeLoop : ℕ → List ℕ → Option (List Char)
  | _, [] => some []
  | 0, _ :: _ => none
  | fuel + 1, b :: bs =>
    (utf8DecodeChar (b :: bs)).bind fun nr =>
      (utf8DecodeLoop fuel nr.2).map fun cs => Char.ofNat nr.1 :: cs

/-- Modelled from the spec: UTF-8 decoding of a byte list. -/
def utf8Decode (bs : List ℕ) : Option (List Char) :=
  utf8DecodeLoop bs.length bs

/-- msgpack value shapes produced when packing lap tuples: integers, strings
and arrays (Python tuples pack as msgpack arrays). -/
inductive MpVal where
  | mpInt : Int → MpVal
  | mpStr : String → MpVal
  | mpArr : List MpVal → MpVal

/-- Big-endian 2-byte encoding of a natural number below `2^16`. -/
def be2 (n : ℕ) : List ℕ := [n / 2^8 % 256, n % 256]

/-- Big-endian 4-byte encoding of a natural number below `2^32`. -/
def be4 (n : ℕ) : List ℕ :=
  [n / 2^24 % 256, n / 2^16 % 256, n / 2^8 % 256, n % 256]

/-- Big-endian 8-byte encoding of a natural number below `2^64`. -/
def be8 (n : ℕ) : List ℕ :=
  [n / 2^56 % 256, n / 2^48 % 256, n / 2^40 % 256, n / 2^32 % 256,
   n / 2^24 % 256, n / 2^16 % 256, n / 2^8 % 256, n % 256]

/-- Modelled from the spec: `msgpack.packb` integer encoding (smallest
format wins); `none` models the overflow raise outside `[-2^63, 2^64)`. -/
def encInt (i : Int) : Option (List ℕ) :=
  if 0 ≤ i then
    let n := i.toNat
    if n < 0x80 then some [n]
    else if n < 0x100 then some [0xcc, n]
    else if n < 0x10000 then some (0xcd :: be2 n)
    else if n < 0x100000000 then some (0xce :: be4 n)
    else if n < 0x10000000000000000 then some (0xcf :: be8 n)
    else none
  else
    if -32 ≤ i then some [(i + 0x100).toNat]
    else if -0x80 ≤ i then some [0xd0, (i + 0x100).toNat]
    else if -0x8000 ≤ i then some (0xd1 :: be2 (i + 0x10000).toNat)
    else if -0x80000000 ≤ i then some (0xd2 :: be4 (i + 0x100000000).toNat)
    else if -0x8000000000000000 ≤ i then
      some (0xd3 :: be8 (i + 0x10000000000000000).toNat)
    else none

/-- Modelled from the spec: `msgpack.packb` string encoding (fixstr and the
str8/16/32 headers over the UTF-8 payload). -/
def encStr (s : String) : Option (List ℕ) :=
  let bs := utf8Encode s
  let n := bs.length
  if n < 32 then some ((0xa0 + n) :: bs)
  else if n < 0x100 then some (0xd9 :: n :: bs)
  else if n < 0x10000 then some (0xda :: be2 n ++ bs)
  else if n < 0x100000000 then some (0xdb :: be4 n ++ bs)
  else none

mutual

/-- Modelled from the spec: `msgpack.packb` on a value (ints, strings and
arrays, the shapes lap blobs use). -/
def encodeVal : MpVal → Option (List ℕ)
  | .mpInt i => encInt i
  | .mpStr s => encStr s
  | .mpArr l => do
      let payload ← encodeListPayload l
      let n := l.length
      if n < 16 then pure ((0x90 + n) :: payload)
      else if n < 0x10000 then pure (0xdc :: be2 n ++ payload)
      else if n < 0x100000000 then pure (0xdd :: be4 n ++ payload)
      else none

/-- Modelled from the spec: concatenated encodings of array elements. -/
def encodeListPayload : List MpVal → Option (List ℕ)
  | [] => some []
  | v :: vs => do
      let b ← encodeVal v
      let rest ← encodeListPayload vs
      pure (b ++ rest)

end

mutual

/-- Nesting measure of a msgpack value: the fuel `decodeVal` needs. -/
def mpSize : MpVal → ℕ
  | .mpInt _ => 1
  | .mpStr _ => 1
  | .mpArr l => mpSizeList l + 1

/-- Nesting measure of a list of msgpack values. -/
def mpSizeList : List MpVal → ℕ
  | [] => 0
  | v :: vs => max (mpSize v) (mpSizeList vs)

end

/-- Modelled from the spec: decode a string payload of `len` bytes. -/
def decodeStrPayload (len : ℕ) (bs : List ℕ) : Option (MpVal × List ℕ) :=
  if len ≤ bs.length then
    (utf8Decode (bs.take len)).map fun cs => (.mpStr (String.mk cs), bs.drop len)
  else none

set_option maxRecDepth 4000

mutual

/-- Modelled from the spec: `msgpack.unpackb` on the formats `packb` emits
for lap blobs; `fuel` bounds the array-nesting depth. -/
def decodeVal : ℕ → List ℕ → Option (MpVal × List ℕ)
  | 0, _ => none
  | _ + 1, [] => none
  | fuel + 1, b :: bs =>
    if b < 0x80 then some (.mpInt (Int.ofNat b), bs)
    else if b < 0x90 then none
    else if b < 0xa0 then
      (decodeList fuel (b - 0x90) bs).map fun vr => (.mpArr vr.1, vr.2)
    else if b < 0xc0 then decodeStrPayload (b - 0xa0) bs
    else if b = 0xcc then
      match bs with
      | n :: r => some (.mpInt (Int.ofNat n), r)
      | [] => none
    else if b = 0xcd then
      match bs with
      | a :: c :: r => some (.mpInt (Int.ofNat (a * 2^8 + c)), r)
      | _ => none
    else if b = 0xce then
      match bs with
      | a :: c :: d :: e :: r =>
          some (.mpInt (Int.ofNat (a * 2^24 + c * 2^16 + d * 2^8 + e)), r)
      | _ => none
    else if b = 0xcf then
      match bs with
      | a :: c :: d :: e :: f :: g :: h :: k :: r =>
          some (.mpInt (Int.ofNat (a * 2^56 + c * 2^48 + d * 2^40 + e * 2^32
                + f * 2^24 + g * 2^16 + h * 2^8 + k)), r)
      | _ => none
    else if b = 0xd0 then
      match bs with
      | a :: r =>
          some (.mpInt (if a < 0x80 then (a : Int) else (a : Int) - 0x100), r)
      | [] => none
    else if b = 0xd1 then
      match bs with
      | a :: c :: r =>
          let v : ℕ := a * 2^8 + c
          some (.mpInt (if v < 0x8000 then (v : Int) else (v : Int) - 0x10000), r)
      | _ => none
    else if b = 0xd2 then
      match bs with
      | a :: c :: d :: e :: r =>
          let v : ℕ := a * 2^24 + c * 2^16 + d * 2^8 + e
          some (.mpInt (if v < 0x80000000 then (v : Int)
                        else (v : Int) - 0x100000000), r)
      | _ => none
    else if b = 0xd3 then
      match bs with
      | a :: c :: d :: e :: f :: g :: h :: k :: r =>
          let v : ℕ := a * 2^56 + c * 2^48 + d * 2^40 + e * 2^32 + f * 2^24
                + g * 2^16 + h * 2^8 + k
          some (.mpInt (if v < 0x8000000000000000 then (v : Int)
                        else (v : Int) - 0x10000000000000000), r)
      | _ => none
    else if b = 0xd9 then
      match bs with
      | n :: r => decodeStrPayload n r
      | [] => none
    else if b = 0xda then
      match bs with
      | a :: c :: r => decodeStrPayload (a * 2^8 + c) r
      | _ => none
    else if b = 0xdb then
      match bs with
      | a :: c :: d :: e :: r =>
          decodeStrPayload (a * 2^24 + c * 2^16 + d * 2^8 + e) r
      | _ => none
    else if b = 0xdc then
      match bs with
      | a :: c :: r =>
          (decodeList fuel (a * 2^8 + c) r).map fun vr => (.mpArr vr.1, vr.2)
      | _ => none
    else if b = 0xdd then
      match bs with
      | a :: c :: d :: e :: r =>
          (decodeList fuel (a * 2^24 + c * 2^16 + d * 2^8 + e) r).map
            fun vr => (.mpArr vr.1, vr.2)
      | _ => none
    else if 0xe0 ≤ b then some (.mpInt ((b : Int) - 0x100), bs)
    else none
termination_by fuel bs => (fuel, 0)

/-- Modelled from the spec: decode `n` consecutive msgpack values. -/
def decodeList : ℕ → ℕ → List ℕ → Option (List MpVal × List ℕ)
  | _, 0, bs => some ([], bs)
  | fuel, n + 1, bs =>
    (decodeVal fuel bs).bind fun vr =>
      (decodeList fuel n vr.2).map fun lr => (vr.1 :: lr.1, lr.2)
termination_by fuel n bs => (fuel, n + 1)

end

/-- `Lap` from `model.py`: `(name, start, end, length)`. -/
abbrev Lap : Type := String × Int × Int × Int

/-- A lap tuple as the msgpack value `packb` sees. -/
def lapToMp : Lap → MpVal
  | (n, s, e, l) => .mpArr [.mpStr n, .mpInt s, .mpInt e, .mpInt l]

/-- `pack(laps)` from `model.py`: `msgpack.packb` on the lap-tuple sequence. -/
def packLaps (laps : List Lap) : Option (List ℕ) :=
  encodeVal (.mpArr (laps.map lapToMp))

/-- Read one decoded msgpack value back as a lap tuple. -/
def mpToLap : MpVal → Option Lap
  | .mpArr [.mpStr n, .mpInt s, .mpInt e, .mpInt l] => some (n, s, e, l)
  | _ => none

/-- `unpack(data)` from `model.py` (`msgpack.unpackb(data, use_list=False)`),
read back as a lap-tuple sequence; all input bytes must be consumed. -/
def unpackLaps (bs : List ℕ) : Option (List Lap) :=
  match decodeVal bs.length bs with
  | some (.mpArr vs, []) => vs.mapM mpToLap
  | _ => none

/-! ## The `Event` record -/

/-- `Event` dataclass from `model.py`. -/
structure Event where
  id : String
  task_id : String
  status : EventStatus
  laps : List Lap
  work : Int
deriving DecidableEq, Repr

/-- The dict consumed by `Event.__init__` / produced by `Event.to_dict`:
`task_id` is required, the rest is optional (`d.get`); `laps` holds the
packed byte blob. -/
structure EventDict where
  id : Option String
  task_id : String
  status : Option String
  laps : Option (List ℕ)
  work : Option Int
deriving DecidableEq, Repr

/-- `Event.__init__(d)` from `model.py`; `t` is the current timestamp (used
by both the `date_id()` default id and the initial lap's `now()`).  `none`
models the raises of `EventStatus[...]` and `unpack`. -/
def eventFromDict (d : EventDict) (t : Int) : Option Event := do
  let id ← match d.id with
    | some i => pure i
    | none => date_id t
  let status ← EventStatus.ofName (d.status.getD "Running")
  let lap : Lap := (LapName.Split.nameStr, t, 0, 0)
  let laps ← match d.laps with
    | some bs => if bs.isEmpty then pure [lap] else unpackLaps bs
    | none => pure [lap]
  pure { id := id, task_id := d.task_id, status := status, laps := laps,
         work := d.work.getD 0 }

/-- `Event.to_dict` from `model.py`; note the literal `"work": 0`.  `none`
models the pack raise on out-of-range integers. -/
def Event.toDict (e : Event) : Option EventDict := do
  let bs ← packLaps e.laps
  pure { id := some e.id, task_id := e.task_id, status := some e.status.nameStr,
         laps := some bs, work := some 0 }

/-! ## The event state machine

The `Event.split/pause/resume/stop` methods are called from `util.py` but
are not present in the source tree; they are modelled from spec §4.1/§4.2.
The Lap Ledger is the `laps` list; the open lap, when present, is the last
element. -/

/-- First component of a lap tuple: the lap kind's name string. -/
def lapName (l : Lap) : String := l.1

/-- Second component of a lap tuple: the opening timestamp. -/
def lapStart (l : Lap) : Int := l.2.1

/-- Third component of a lap tuple: the closing timestamp (0 while open). -/
def lapStop (l : Lap) : Int := l.2.2.1

/-- Fourth component of a lap tuple: the length in seconds (0 while open). -/
def lapLen (l : Lap) : Int := l.2.2.2

/-- Modelled from the spec (§4.1 `open`): a new open lap `(kind, at, 0, 0)`. -/
def openLap (k : LapName) (t : Int) : Lap := (k.nameStr, t, 0, 0)

/-- Modelled from the spec (§4.1 `close`): close a lap at `t`, setting
`end = t` and `length = t - start`. -/
def closeLap (t : Int) (l : Lap) : Lap := (l.1, l.2.1, t, t - l.2.1)

/-- Modelled from the spec (§4.1 `total_work`): the sum of `length` over all
closed laps whose kind is `Split`; `Pause` laps never count. -/
def total_work (laps : List Lap) : Int :=
  ((laps.filter fun l => lapName l == "Split" && !(lapStop l == 0)).map lapLen).sum

/-- Modelled from the spec: `Event.split(cfg)` (§4.2), absent from
`src/src/tt/model.py`.  Valid only in `Running`; closes the current lap at
`t`, discards it when shorter than `split_min` minutes, opens a new Split
lap at `t`. -/
def Event.split (e : Event) (cfg : Config) (t : Int) : Except TTError Event :=
  if e.status ≠ .Running then .error .invalidState
  else
    match e.laps.getLast? with
    | none => .error .invalidState
    | some cur =>
      let closed := closeLap t cur
      let kept := if lapLen closed < cfg.split_min * 60 then e.laps.dropLast
                  else e.laps.dropLast ++ [closed]
      .ok { e with laps := kept ++ [openLap .Split t] }

/-- Modelled from the spec: `Event.pause(cfg)` (§4.2), absent from
`src/src/tt/model.py`.  Valid only in `Running`; closes the current Split
lap (same `split_min` discard rule), opens a Pause lap, goes to `Pausing`. -/
def Event.pause (e : Event) (cfg : Config) (t : Int) : Except TTError Event :=
  if e.status ≠ .Running then .error .invalidState
  else
    match e.laps.getLast? with
    | none => .error .invalidState
    | some cur =>
      let closed := closeLap t cur
      let kept := if lapLen closed < cfg.split_min * 60 then e.laps.dropLast
                  else e.laps.dropLast ++ [closed]
      .ok { e with status := .Pausing, laps := kept ++ [openLap .Pause t] }

/-- Modelled from the spec: `Event.resume(cfg)` (§4.2), absent from
`src/src/tt/model.py`.  Valid only in `Pausing`; closes the Pause lap at
`t`, discards it when shorter than `pause_min` or longer than `pause_max`
minutes, opens a new Split lap at `t`, goes back to `Running`. -/
def Event.resume (e : Event) (cfg : Config) (t : Int) : Except TTError Event :=
  if e.status ≠ .Pausing then .error .invalidState
  else
    match e.laps.getLast? with
    | none => .error .invalidState
    | some cur =>
      let closed := closeLap t cur
      let kept := if lapLen closed < cfg.pause_min * 60
                     ∨ cfg.pause_max * 60 < lapLen closed
                  then e.laps.dropLast
                  else e.laps.dropLast ++ [closed]
      .ok { e with status := .Running, laps := kept ++ [openLap .Split t] }

/-- Modelled from the spec: `Event.stop(cfg)` (§4.2), absent from
`src/src/tt/model.py`.  Valid in `Running` or `Pausing`; closes the open
lap with the discard rule of its kind, sets `work = total_work()`, goes to
`Stopped`. -/
def Event.stop (e : Event) (cfg : Config) (t : Int) : Except TTError Event :=
  if e.status = .Stopped then .error .invalidState
  else
    match e.laps.getLast? with
    | none => .error .invalidState
    | some cur =>
      let closed := closeLap t cur
      let kept :=
        if lapName cur = LapName.Pause.nameStr then
          if lapLen closed < cfg.pause_min * 60
             ∨ cfg.pause_max * 60 < lapLen closed
          then e.laps.dropLast else e.laps.dropLast ++ [closed]
        else
          if lapLen closed < cfg.split_min * 60
          then e.laps.dropLast else e.laps.dropLast ++ [closed]
      .ok { e with status := .Stopped, laps := kept, work := total_work kept }

/-! ## Persistence gateway and `util.py` command flows

The `db` module is not in the source tree; its operations are modelled from
spec §6, with storage as the list of events in creation order. -/

/-- Modelled from the spec: `db.get_last_event` — the most recently created
event; fails when none exist. -/
def db_get_last_event (store : List Event) : Except TTError Event :=
  match store.getLast? with
  | none => .error .noEvent
  | some e => .ok e

/-- Modelled from the spec: `db.insert_event`. -/
def db_insert_event (store : List Event) (e : Event) : List Event :=
  store ++ [e]

/-- Modelled from the spec: `db.update_laps(Event)` — persists the Lap
Ledger and status of the row with the event's id. -/
def db_update_laps (store : List Event) (e : Event) : List Event :=
  store.map (fun x => if x.id = e.id then { x with laps := e.laps, status := e.status } else x)

/-- Modelled from the spec: `db.delete_event(id)`. -/
def db_delete_event (store : List Event) (id : String) : List Event :=
  store.filter (fun x => !(x.id == id))

/-- Modelled from the spec: `db.get_task_by_name`. -/
def db_get_task_by_name (tasks : List Task) (name : String) : Except TTError Task :=
  match tasks.find? (fun t => t.name == name) with
  | none => .error .notFound
  | some t => .ok t

/-- `check_last_event_stopped` from `util.py`: OK when storage is empty
(the only `db.get_last_event` error) or the last event is `Stopped`. -/
def check_last_event_stopped (store : List Event) : Except TTError Unit :=
  match db_get_last_event store with
  | .error _ => .ok ()
  | .ok e => if e.status ≠ .Stopped then .error .notStopped else .ok ()

/-- `get_last_event` from `util.py`: the last event, failing when storage is
empty or that event is already `Stopped`. -/
def get_last_event (store : List Event) : Except TTError Event :=
  match db_get_last_event store with
  | .error err => .error err
  | .ok e => if e.status = .Stopped then .error .stoppedEvent else .ok e

/-- `event_start` from `util.py`: conflict check, task lookup, then insert
of `Event({"task_id": task.id})`.  Returns the new storage and the error,
if any. -/
def event_start (tasks : List Task) (store : List Event) (name : String)
    (t : Int) : List Event × Option TTError :=
  match check_last_event_stopped store with
  | .error err => (store, some err)
  | .ok _ =>
    match db_get_task_by_name tasks name with
    | .error err => (store, some err)
    | .ok task =>
      match eventFromDict { id := none, task_id := task.id, status := none,
                            laps := none, work := none } t with
      | some ev => (db_insert_event store ev, none)
      | none => (store, some .invalidState)

/-- `event_split` from `util.py`: on error from `get_last_event` nothing is
written; otherwise the split ledger is persisted via `update_laps`. -/
def util_event_split (cfg : Config) (t : Int) (store : List Event) : List Event :=
  match get_last_event store with
  | .error _ => store
  | .ok e =>
    match e.split cfg t with
    | .ok e2 => db_update_laps store e2
    | .error _ => store

/-- `event_stop` from `util.py`, including the deletion decision
`if event.work <= cfg["split_min"]` (util.py:169). -/
def util_event_stop (cfg : Config) (t : Int) (store : List Event) : List Event :=
  match get_last_event store with
  | .error _ => store
  | .ok e =>
    match e.stop cfg t with
    | .ok e2 =>
      let store2 := db_update_laps store e2
      if e2.work ≤ cfg.split_min then db_delete_event store2 e2.id else store2
    | .error _ => store

/-- The value `Event({"task_id": tid})` evaluates to at timestamp `t`
(see `eventFromDict_default`). -/
def newEventAt (tid : String) (t : Int) : Event :=
  { id := (date_id t).getD "0", task_id := tid, status := .Running,
    laps := [openLap .Split t], work := 0 }

/-- A sequence of `split()` calls at the given timestamps (an errored call
leaves the event untouched, as the flows in `util.py` never reach `split`
in an invalid state). -/
def applySplits (cfg : Config) : Event → List Int → Event
  | e, [] => e
  | e, t :: ts =>
    applySplits cfg (match e.split cfg t with | .ok e2 => e2 | .error _ => e) ts

/-- The Lap Ledger invariant of claim C2: exactly one open lap (`end = 0`),
which is the last element, and every closed Split lap at least
`split_min * 60` seconds long. -/
def LedgerInv (cfg : Config) (laps : List Lap) : Prop :=
  ∃ c o, laps = c ++ [o] ∧ lapStop o = 0 ∧
    ∀ l ∈ c, lapStop l ≠ 0 ∧ (lapName l = "Split" → cfg.split_min * 60 ≤ lapLen l)


/-! ## Round-trip of the UTF-8 model -/

theorem char_toNat_lt (c : Char) : c.toNat < 1114112 := by
  have h := c.valid
  have h2 : c.toNat = c.val.toNat := rfl
  rcases h with h | h <;> omega

theorem utf8DecodeChar_encodeChar (c : Char) (r : List ℕ) :
    utf8DecodeChar (utf8EncodeChar c ++ r) = some (c.toNat, r) := by
  have hv : c.toNat < 1114112 := char_toNat_lt c
  by_cases h1 : c.toNat < 0x80
  · have e1 : utf8EncodeChar c = [c.toNat] := by
      unfold utf8EncodeChar; rw [if_pos h1]
    rw [e1]
    simp only [List.cons_append, List.nil_append]
    simp only [utf8DecodeChar]
    rw [if_pos h1]
  · by_cases h2 : c.toNat < 0x800
    · have e1 : utf8EncodeChar c = [0xc0 + c.toNat / 64, 0x80 + c.toNat % 64] := by
        unfold utf8EncodeChar; rw [if_neg h1, if_pos h2]
      rw [e1]
      simp only [List.cons_append, List.nil_append]
      simp only [utf8DecodeChar]
      rw [if_neg (by omega), if_neg (by omega), if_pos (by omega)]
      simp
      omega
    · by_cases h3 : c.toNat < 0x10000
      · have e1 : utf8EncodeChar c = [0xe0 + c.toNat / 4096, 0x80 + c.toNat / 64 % 64,
            0x80 + c.toNat % 64] := by
          unfold utf8EncodeChar; rw [if_neg h1, if_neg h2, if_pos h3]
        rw [e1]
        simp only [List.cons_append, List.nil_append]
        simp only [utf8DecodeChar]
        rw [if_neg (by omega), if_neg (by omega), if_neg (by omega), if_pos (by omega)]
        simp
        omega
      · have e1 : utf8EncodeChar c = [0xf0 + c.toNat / 262144, 0x80 + c.toNat / 4096 % 64,
            0x80 + c.toNat / 64 % 64, 0x80 + c.toNat % 64] := by
          unfold utf8EncodeChar; rw [if_neg h1, if_neg h2, if_neg h3]
        rw [e1]
        simp only [List.cons_append, List.nil_append]
        simp only [utf8DecodeChar]
        rw [if_neg (by omega), if_neg (by omega), if_neg (by omega), if_neg (by omega),
          if_pos (by omega)]
        simp
        omega

theorem utf8DecodeLoop_mono : ∀ (fuel k : ℕ) (bs : List ℕ) (out : List Char),
    utf8DecodeLoop fuel bs = some out → utf8DecodeLoop (fuel + k) bs = some out := by
  intro fuel
  induction fuel with
  | zero =>
    intro k bs out h
    cases bs with
    | nil => simp only [utf8DecodeLoop] at h ⊢; exact h
    | cons b t => simp [utf8DecodeLoop] at h
  | succ f ih =>
    intro k bs out h
    cases bs with
    | nil => simp only [utf8DecodeLoop] at h ⊢; exact h
    | cons b t =>
      have harr : f + 1 + k = (f + k) + 1 := by omega
      rw [harr]
      simp only [utf8DecodeLoop, Option.bind_eq_some, Option.map_eq_some'] at h ⊢
      obtain ⟨⟨n, r⟩, hdc, cs, hcs, hout⟩ := h
      exact ⟨⟨n, r⟩, hdc, cs, ih k r cs hcs, hout⟩

theorem utf8DecodeLoop_step (c : Char) (rest : List ℕ) (fuel : ℕ) (out : List Char)
    (h : utf8DecodeLoop fuel rest = some out) :
    utf8DecodeLoop (fuel + (utf8EncodeChar c).length) (utf8EncodeChar c ++ rest)
      = some (c :: out) := by
  have hdec := utf8DecodeChar_encodeChar c rest
  have hlen : 1 ≤ (utf8EncodeChar c).length := by
    unfold utf8EncodeChar
    dsimp only
    split_ifs <;> simp
  cases henc : utf8EncodeChar c with
  | nil => rw [henc] at hlen; simp at hlen
  | cons b t =>
    rw [henc] at hdec
    simp only [List.length_cons, List.cons_append] at hdec ⊢
    have harr : fuel + (t.length + 1) = (fuel + t.length) + 1 := by omega
    rw [harr]
    simp only [utf8DecodeLoop, Option.bind_eq_some, Option.map_eq_some']
    exact ⟨(c.toNat, rest), hdec, out, utf8DecodeLoop_mono fuel t.length rest out h,
      by simp [Char.ofNat_toNat]⟩

theorem utf8DecodeLoop_encodeList : ∀ (cs : List Char) (r : List ℕ) (fuel : ℕ)
    (out : List Char), utf8DecodeLoop fuel r = some out →
    utf8DecodeLoop (fuel + ((cs.map utf8EncodeChar).flatten).length)
      ((cs.map utf8EncodeChar).flatten ++ r) = some (cs ++ out) := by
  intro cs
  induction cs with
  | nil => intro r fuel out h; simpa using h
  | cons c cs ih =>
    intro r fuel out h
    simp only [List.map_cons, List.flatten_cons, List.length_append, List.append_assoc]
    have harr : fuel + ((utf8EncodeChar c).length + ((cs.map utf8EncodeChar).flatten).length)
        = (fuel + ((cs.map utf8EncodeChar).flatten).length) + (utf8EncodeChar c).length := by
      omega
    rw [harr]
    exact utf8DecodeLoop_step c _ _ _ (ih r fuel out h)

theorem utf8Decode_encode (s : String) : utf8Decode (utf8Encode s) = some s.data := by
  have h0 : utf8DecodeLoop 0 [] = some [] := rfl
  have h := utf8DecodeLoop_encodeList s.data [] 0 [] h0
  simp only [List.append_nil, Nat.zero_add] at h
  simpa [utf8Decode, utf8Encode] using h

/-! ## Round-trip of the msgpack model -/

theorem decodeVal_posFix (b : ℕ) (hb : b < 0x80) (fuel : ℕ) (bs : List ℕ) :
    decodeVal (fuel + 1) (b :: bs) = some (.mpInt (Int.ofNat b), bs) := by
  rw [decodeVal.eq_def]
  dsimp only
  rw [if_pos hb]

theorem decodeVal_fixArr (b : ℕ) (hb1 : 0x90 ≤ b) (hb2 : b < 0xa0) (fuel : ℕ)
    (bs : List ℕ) :
    decodeVal (fuel + 1) (b :: bs)
      = (decodeList fuel (b - 0x90) bs).map fun vr => (.mpArr vr.1, vr.2) := by
  rw [decodeVal.eq_def]
  dsimp only
  rw [if_neg (by omega), if_neg (by omega), if_pos (by omega)]

theorem decodeVal_fixStr (b : ℕ) (hb1 : 0xa0 ≤ b) (hb2 : b < 0xc0) (fuel : ℕ)
    (bs : List ℕ) :
    decodeVal (fuel + 1) (b :: bs) = decodeStrPayload (b - 0xa0) bs := by
  rw [decodeVal.eq_def]
  dsimp only
  rw [if_neg (by omega), if_neg (by omega), if_neg (by omega), if_pos (by omega)]

theorem decodeVal_negFix (b : ℕ) (hb1 : 0xe0 ≤ b) (fuel : ℕ) (bs : List ℕ) :
    decodeVal (fuel + 1) (b :: bs) = some (.mpInt ((b : Int) - 0x100), bs) := by
  rw [decodeVal.eq_def]
  dsimp only
  have hcc : b ≠ 0xcc := by omega
  have hcd : b ≠ 0xcd := by omega
  have hce : b ≠ 0xce := by omega
  have hcf : b ≠ 0xcf := by omega
  have hd0 : b ≠ 0xd0 := by omega
  have hd1 : b ≠ 0xd1 := by omega
  have hd2 : b ≠ 0xd2 := by omega
  have hd3 : b ≠ 0xd3 := by omega
  have hd9 : b ≠ 0xd9 := by omega
  have hda : b ≠ 0xda := by omega
  have hdb : b ≠ 0xdb := by omega
  have hdc : b ≠ 0xdc := by omega
  have hdd : b ≠ 0xdd := by omega
  have hlow : ¬ b < 0x80 := by omega
  have hfm : ¬ b < 0x90 := by omega
  have hfa : ¬ b < 0xa0 := by omega
  have hfs : ¬ b < 0xc0 := by omega
  rw [if_neg hlow, if_neg hfm, if_neg hfa, if_neg hfs, if_neg hcc, if_neg hcd,
    if_neg hce, if_neg hcf, if_neg hd0, if_neg hd1, if_neg hd2, if_neg hd3,
    if_neg hd9, if_neg hda, if_neg hdb, if_neg hdc, if_neg hdd, if_pos hb1]

theorem decodeVal_uint8 (fuel n : ℕ) (r : List ℕ) :
    decodeVal (fuel + 1) (0xcc :: n :: r) = some (.mpInt (Int.ofNat n), r) := by
  rw [decodeVal.eq_def]
  norm_num

theorem decodeVal_uint16 (fuel a c : ℕ) (r : List ℕ) :
    decodeVal (fuel + 1) (0xcd :: a :: c :: r)
      = some (.mpInt (Int.ofNat (a * 2^8 + c)), r) := by
  rw [decodeVal.eq_def]
  norm_num

theorem decodeVal_uint32 (fuel a c d e : ℕ) (r : List ℕ) :
    decodeVal (fuel + 1) (0xce :: a :: c :: d :: e :: r)
      = some (.mpInt (Int.ofNat (a * 2^24 + c * 2^16 + d * 2^8 + e)), r) := by
  rw [decodeVal.eq_def]
  norm_num

theorem decodeVal_uint64 (fuel a c d e f g h k : ℕ) (r : List ℕ) :
    decodeVal (fuel + 1) (0xcf :: a :: c :: d :: e :: f :: g :: h :: k :: r)
      = some (.mpInt (Int.ofNat (a * 2^56 + c * 2^48 + d * 2^40 + e * 2^32
          + f * 2^24 + g * 2^16 + h * 2^8 + k)), r) := by
  rw [decodeVal.eq_def]
  norm_num

theorem decodeVal_int8 (fuel a : ℕ) (r : List ℕ) :
    decodeVal (fuel + 1) (0xd0 :: a :: r)
      = some (.mpInt (if a < 0x80 then (a : Int) else (a : Int) - 0x100), r) := by
  rw [decodeVal.eq_def]
  norm_num

theorem decodeVal_int16 (fuel a c : ℕ) (r : List ℕ) :
    decodeVal (fuel + 1) (0xd1 :: a :: c :: r)
      = some (.mpInt (if a * 2^8 + c < 0x8000 then ((a * 2^8 + c : ℕ) : Int)
          else ((a * 2^8 + c : ℕ) : Int) - 0x10000), r) := by
  rw [decodeVal.eq_def]
  norm_num

theorem decodeVal_int32 (fuel a c d e : ℕ) (r : List ℕ) :
    decodeVal (fuel + 1) (0xd2 :: a :: c :: d :: e :: r)
      = some (.mpInt (if a * 2^24 + c * 2^16 + d * 2^8 + e < 0x80000000
          then ((a * 2^24 + c * 2^16 + d * 2^8 + e : ℕ) : Int)
          else ((a * 2^24 + c * 2^16 + d * 2^8 + e : ℕ) : Int) - 0x100000000), r) := by
  rw [decodeVal.eq_def]
  norm_num

theorem decodeVal_int64 (fuel a c d e f g h k : ℕ) (r : List ℕ) :
    decodeVal (fuel + 1) (0xd3 :: a :: c :: d :: e :: f :: g :: h :: k :: r)
      = some (.mpInt (if a * 2^56 + c * 2^48 + d * 2^40 + e * 2^32 + f * 2^24
            + g * 2^16 + h * 2^8 + k < 0x8000000000000000
          then ((a * 2^56 + c * 2^48 + d * 2^40 + e * 2^32 + f * 2^24 + g * 2^16
            + h * 2^8 + k : ℕ) : Int)
          else ((a * 2^56 + c * 2^48 + d * 2^40 + e * 2^32 + f * 2^24 + g * 2^16
            + h * 2^8 + k : ℕ) : Int) - 0x10000000000000000), r) := by
  rw [decodeVal.eq_def]
  norm_num

theorem decodeVal_str8 (fuel n : ℕ) (r : List ℕ) :
    decodeVal (fuel + 1) (0xd9 :: n :: r) = decodeStrPayload n r := by
  rw [decodeVal.eq_def]
  norm_num

theorem decodeVal_str16 (fuel a c : ℕ) (r : List ℕ) :
    decodeVal (fuel + 1) (0xda :: a :: c :: r) = decodeStrPayload (a * 2^8 + c) r := by
  rw [decodeVal.eq_def]
  norm_num

theorem decodeVal_str32 (fuel a c d e : ℕ) (r : List ℕ) :
    decodeVal (fuel + 1) (0xdb :: a :: c :: d :: e :: r)
      = decodeStrPayload (a * 2^24 + c * 2^16 + d * 2^8 + e) r := by
  rw [decodeVal.eq_def]
  norm_num

theorem decodeVal_arr16 (fuel a c : ℕ) (r : List ℕ) :
    decodeVal (fuel + 1) (0xdc :: a :: c :: r)
      = (decodeList fuel (a * 2^8 + c) r).map fun vr => (.mpArr vr.1, vr.2) := by
  rw [decodeVal.eq_def]
  norm_num

theorem decodeVal_arr32 (fuel a c d e : ℕ) (r : List ℕ) :
    decodeVal (fuel + 1) (0xdd :: a :: c :: d :: e :: r)
      = (decodeList fuel (a * 2^24 + c * 2^16 + d * 2^8 + e) r).map
          fun vr => (.mpArr vr.1, vr.2) := by
  rw [decodeVal.eq_def]
  norm_num

theorem decodeVal_encInt (i : Int) (bs : List ℕ) (henc : encInt i = some bs)
    (fuel : ℕ) (r : List ℕ) :
    decodeVal (fuel + 1) (bs ++ r) = some (.mpInt i, r) := by
  unfold encInt at henc
  by_cases h0 : 0 ≤ i
  · rw [if_pos h0] at henc
    dsimp only at henc
    by_cases h1 : i.toNat < 0x80
    · rw [if_pos h1] at henc
      simp only [Option.some.injEq] at henc
      subst henc
      simp only [List.cons_append, List.nil_append]
      rw [decodeVal_posFix _ h1]
      simp only [Option.some.injEq, Prod.mk.injEq, MpVal.mpInt.injEq]
      refine ⟨?_, trivial⟩
      try simp only [Int.ofNat_eq_natCast]
      omega
    · rw [if_neg h1] at henc
      by_cases h2 : i.toNat < 0x100
      · rw [if_pos h2] at henc
        simp only [Option.some.injEq] at henc
        subst henc
        simp only [List.cons_append, List.nil_append]
        rw [decodeVal_uint8]
        simp only [Option.some.injEq, Prod.mk.injEq, MpVal.mpInt.injEq]
        refine ⟨?_, trivial⟩
        try simp only [Int.ofNat_eq_natCast]
        omega
      · rw [if_neg h2] at henc
        by_cases h3 : i.toNat < 0x10000
        · rw [if_pos h3] at henc
          simp only [Option.some.injEq] at henc
          subst henc
          simp only [be2, List.cons_append, List.nil_append]
          rw [decodeVal_uint16]
          simp only [Option.some.injEq, Prod.mk.injEq, MpVal.mpInt.injEq]
          refine ⟨?_, trivial⟩
          try simp only [Int.ofNat_eq_natCast]
          omega
        · rw [if_neg h3] at henc
          by_cases h4 : i.toNat < 0x100000000
          · rw [if_pos h4] at henc
            simp only [Option.some.injEq] at henc
            subst henc
            simp only [be4, List.cons_append, List.nil_append]
            rw [decodeVal_uint32]
            simp only [Option.some.injEq, Prod.mk.injEq, MpVal.mpInt.injEq]
            refine ⟨?_, trivial⟩
            try simp only [Int.ofNat_eq_natCast]
            omega
          · rw [if_neg h4] at henc
            by_cases h5 : i.toNat < 0x10000000000000000
            · rw [if_pos h5] at henc
              simp only [Option.some.injEq] at henc
              subst henc
              simp only [be8, List.cons_append, List.nil_append]
              rw [decodeVal_uint64]
              simp only [Option.some.injEq, Prod.mk.injEq, MpVal.mpInt.injEq]
              refine ⟨?_, trivial⟩
              try simp only [Int.ofNat_eq_natCast]
              omega
            · rw [if_neg h5] at henc
              simp at henc
  · rw [if_neg h0] at henc
    by_cases h1 : -32 ≤ i
    · rw [if_pos h1] at henc
      simp only [Option.some.injEq] at henc
      subst henc
      simp only [List.cons_append, List.nil_append]
      rw [decodeVal_negFix _ (by omega)]
      simp only [Option.some.injEq, Prod.mk.injEq, MpVal.mpInt.injEq]
      refine ⟨?_, trivial⟩
      try simp only [Int.ofNat_eq_natCast]
      omega
    · rw [if_neg h1] at henc
      by_cases h2 : -0x80 ≤ i
      · rw [if_pos h2] at henc
        simp only [Option.some.injEq] at henc
        subst henc
        simp only [List.cons_append, List.nil_append]
        rw [decodeVal_int8]
        rw [if_neg (by omega)]
        simp only [Option.some.injEq, Prod.mk.injEq, MpVal.mpInt.injEq]
        refine ⟨?_, trivial⟩
        try simp only [Int.ofNat_eq_natCast]
        omega
      · rw [if_neg h2] at henc
        by_cases h3 : -0x8000 ≤ i
        · rw [if_pos h3] at henc
          simp only [Option.some.injEq] at henc
          subst henc
          simp only [be2, List.cons_append, List.nil_append]
          rw [decodeVal_int16]
          rw [if_neg (by omega)]
          simp only [Option.some.injEq, Prod.mk.injEq, MpVal.mpInt.injEq]
          refine ⟨?_, trivial⟩
          try simp only [Int.ofNat_eq_natCast]
          omega
        · rw [if_neg h3] at henc
          by_cases h4 : -0x80000000 ≤ i
          · rw [if_pos h4] at henc
            simp only [Option.some.injEq] at henc
            subst henc
            simp only [be4, List.cons_append, List.nil_append]
            rw [decodeVal_int32]
            rw [if_neg (by omega)]
            simp only [Option.some.injEq, Prod.mk.injEq, MpVal.mpInt.injEq]
            refine ⟨?_, trivial⟩
            try simp only [Int.ofNat_eq_natCast]
            omega
          · rw [if_neg h4] at henc
            by_cases h5 : -0x8000000000000000 ≤ i
            · rw [if_pos h5] at henc
              simp only [Option.some.injEq] at henc
              subst henc
              simp only [be8, List.cons_append, List.nil_append]
              rw [decodeVal_int64]
              rw [if_neg (by omega)]
              simp only [Option.some.injEq, Prod.mk.injEq, MpVal.mpInt.injEq]
              refine ⟨?_, trivial⟩
              try simp only [Int.ofNat_eq_natCast]
              omega
            · rw [if_neg h5] at henc
              simp at henc

theorem decodeStrPayload_encode (s : String) (r : List ℕ) :
    decodeStrPayload (utf8Encode s).length (utf8Encode s ++ r)
      = some (.mpStr s, r) := by
  unfold decodeStrPayload
  rw [if_pos (by simp)]
  rw [List.take_left, List.drop_left]
  rw [utf8Decode_encode]
  rfl

theorem decodeVal_encStr (s : String) (bs : List ℕ) (henc : encStr s = some bs)
    (fuel : ℕ) (r : List ℕ) :
    decodeVal (fuel + 1) (bs ++ r) = some (.mpStr s, r) := by
  unfold encStr at henc
  dsimp only at henc
  by_cases h1 : (utf8Encode s).length < 32
  · rw [if_pos h1] at henc
    simp only [Option.some.injEq] at henc
    subst henc
    simp only [List.cons_append]
    rw [decodeVal_fixStr _ (by omega) (by omega)]
    have harr : 0xa0 + (utf8Encode s).length - 0xa0 = (utf8Encode s).length := by omega
    rw [harr]
    exact decodeStrPayload_encode s r
  · rw [if_neg h1] at henc
    by_cases h2 : (utf8Encode s).length < 0x100
    · rw [if_pos h2] at henc
      simp only [Option.some.injEq] at henc
      subst henc
      simp only [List.cons_append]
      rw [decodeVal_str8]
      exact decodeStrPayload_encode s r
    · rw [if_neg h2] at henc
      by_cases h3 : (utf8Encode s).length < 0x10000
      · rw [if_pos h3] at henc
        simp only [Option.some.injEq] at henc
        subst henc
        simp only [be2, List.cons_append, List.nil_append, List.append_assoc]
        rw [decodeVal_str16]
        have harr : (utf8Encode s).length / 2^8 % 256 * 2^8 + (utf8Encode s).length % 256
            = (utf8Encode s).length := by omega
        rw [harr]
        exact decodeStrPayload_encode s r
      · rw [if_neg h3] at henc
        by_cases h4 : (utf8Encode s).length < 0x100000000
        · rw [if_pos h4] at henc
          simp only [Option.some.injEq] at henc
          subst henc
          simp only [be4, List.cons_append, List.nil_append, List.append_assoc]
          rw [decodeVal_str32]
          have harr : (utf8Encode s).length / 2^24 % 256 * 2^24
              + (utf8Encode s).length / 2^16 % 256 * 2^16
              + (utf8Encode s).length / 2^8 % 256 * 2^8
              + (utf8Encode s).length % 256 = (utf8Encode s).length := by omega
          rw [harr]
          exact decodeStrPayload_encode s r
        · rw [if_neg h4] at henc
          simp at henc

theorem mp_roundtrip : ∀ fuel : ℕ,
    (∀ (v : MpVal) (bs r : List ℕ), mpSize v ≤ fuel → encodeVal v = some bs →
      decodeVal fuel (bs ++ r) = some (v, r)) ∧
    (∀ (vs : List MpVal) (bs r : List ℕ), mpSizeList vs ≤ fuel →
      encodeListPayload vs = some bs →
      decodeList fuel vs.length (bs ++ r) = some (vs, r)) := by
  intro fuel
  induction fuel using Nat.strong_induction_on with
  | _ fuel IH =>
  have hval : ∀ (v : MpVal) (bs r : List ℕ), mpSize v ≤ fuel → encodeVal v = some bs →
      decodeVal fuel (bs ++ r) = some (v, r) := by
    intro v bs r hsz henc
    cases v with
    | mpInt i =>
      have h1 : 1 ≤ fuel := by simp [mpSize] at hsz; omega
      obtain ⟨f, rfl⟩ : ∃ f, fuel = f + 1 := ⟨fuel - 1, by omega⟩
      exact decodeVal_encInt i bs (by simpa [encodeVal] using henc) f r
    | mpStr s =>
      have h1 : 1 ≤ fuel := by simp [mpSize] at hsz; omega
      obtain ⟨f, rfl⟩ : ∃ f, fuel = f + 1 := ⟨fuel - 1, by omega⟩
      exact decodeVal_encStr s bs (by simpa [encodeVal] using henc) f r
    | mpArr l =>
      have hsz2 : mpSizeList l + 1 ≤ fuel := by simp [mpSize] at hsz; omega
      obtain ⟨f, rfl⟩ : ∃ f, fuel = f + 1 := ⟨fuel - 1, by omega⟩
      simp only [encodeVal, Option.bind_eq_bind, Option.pure_def, Option.bind_eq_some] at henc
      obtain ⟨payload, hpl, hif⟩ := henc
      have hlistf := (IH f (by omega)).2 l payload r (by omega) hpl
      by_cases hn1 : l.length < 16
      · rw [if_pos hn1] at hif
        simp only [Option.some.injEq] at hif
        subst hif
        simp only [List.cons_append]
        rw [decodeVal_fixArr _ (by omega) (by omega)]
        have harr : 0x90 + l.length - 0x90 = l.length := by omega
        rw [harr, hlistf]
        rfl
      · rw [if_neg hn1] at hif
        by_cases hn2 : l.length < 0x10000
        · rw [if_pos hn2] at hif
          simp only [Option.some.injEq] at hif
          subst hif
          simp only [be2, List.cons_append, List.nil_append, List.append_assoc]
          rw [decodeVal_arr16]
          have harr : l.length / 2^8 % 256 * 2^8 + l.length % 256 = l.length := by
            omega
          rw [harr, hlistf]
          rfl
        · rw [if_neg hn2] at hif
          by_cases hn3 : l.length < 0x100000000
          · rw [if_pos hn3] at hif
            simp only [Option.some.injEq] at hif
            subst hif
            simp only [be4, List.cons_append, List.nil_append, List.append_assoc]
            rw [decodeVal_arr32]
            have harr : l.length / 2^24 % 256 * 2^24 + l.length / 2^16 % 256 * 2^16
                + l.length / 2^8 % 256 * 2^8 + l.length % 256 = l.length := by omega
            rw [harr, hlistf]
            rfl
          · rw [if_neg hn3] at hif
            simp at hif
  have hlist : ∀ (vs : List MpVal) (bs r : List ℕ), mpSizeList vs ≤ fuel →
      encodeListPayload vs = some bs → decodeList fuel vs.length (bs ++ r) = some (vs, r) := by
    intro vs
    induction vs with
    | nil =>
      intro bs r hsz henc
      have hbs : bs = [] := by simpa [encodeListPayload] using henc.symm
      subst hbs
      simp only [List.nil_append, List.length_nil]
      rw [decodeList.eq_def]
    | cons v vs ih =>
      intro bs r hsz henc
      simp only [encodeListPayload, Option.bind_eq_bind, Option.pure_def, Option.bind_eq_some] at henc
      obtain ⟨bv, hbv, brest, hbrest, heq⟩ := henc
      simp only [Option.some.injEq] at heq
      subst heq
      have hszv : mpSize v ≤ fuel := by simp [mpSizeList] at hsz; omega
      have hszl : mpSizeList vs ≤ fuel := by simp [mpSizeList] at hsz; omega
      simp only [List.length_cons, List.append_assoc]
      rw [decodeList.eq_def]
      dsimp only
      rw [hval v bv _ hszv hbv]
      simp only [Option.some_bind]
      rw [ih _ _ hszl hbrest]
      rfl
  exact ⟨hval, hlist⟩

theorem encodeVal_ne_nil (v : MpVal) (bs : List ℕ) (henc : encodeVal v = some bs) :
    bs ≠ [] := by
  cases v with
  | mpInt i =>
    simp only [encodeVal] at henc
    unfold encInt at henc
    dsimp only at henc
    split_ifs at henc <;>
      first
        | (simp only [Option.some.injEq] at henc; subst henc; simp [be2, be4, be8])
        | simp at henc
  | mpStr s =>
    simp only [encodeVal] at henc
    unfold encStr at henc
    dsimp only at henc
    split_ifs at henc <;>
      first
        | (simp only [Option.some.injEq] at henc; subst henc; simp [be2, be4])
        | simp at henc
  | mpArr l =>
    simp only [encodeVal, Option.bind_eq_bind, Option.pure_def, Option.bind_eq_some] at henc
    obtain ⟨payload, hpl, hif⟩ := henc
    split_ifs at hif <;>
      first
        | (simp only [Option.some.injEq] at hif; subst hif; simp [be2, be4])
        | simp at hif

theorem encodeVal_size_le : ∀ (n : ℕ) (v : MpVal) (bs : List ℕ), bs.length ≤ n →
    encodeVal v = some bs → mpSize v ≤ bs.length := by
  intro n
  induction n using Nat.strong_induction_on with
  | _ n IH =>
  intro v bs hlen henc
  have hne := encodeVal_ne_nil _ _ henc
  have h1 : 1 ≤ bs.length := by
    cases bs
    · simp at hne
    · simp
  cases v with
  | mpInt i => simpa [mpSize] using h1
  | mpStr s => simpa [mpSize] using h1
  | mpArr l =>
    simp only [encodeVal, Option.bind_eq_bind, Option.pure_def, Option.bind_eq_some] at henc
    obtain ⟨payload, hpl, hif⟩ := henc
    have hpay_bs : payload.length + 1 ≤ bs.length := by
      split_ifs at hif <;>
        first
          | (simp only [Option.some.injEq] at hif; subst hif; simp [be2, be4])
          | simp at hif
    have hinner : ∀ (vs : List MpVal) (pl : List ℕ), encodeListPayload vs = some pl →
        pl.length ≤ payload.length → mpSizeList vs ≤ pl.length := by
      intro vs
      induction vs with
      | nil =>
        intro pl hp1 hp2
        have : pl = [] := by simpa [encodeListPayload] using hp1.symm
        subst this
        simp [mpSizeList]
      | cons v vs ih =>
        intro pl hp1 hp2
        simp only [encodeListPayload, Option.bind_eq_bind, Option.pure_def,
          Option.bind_eq_some] at hp1
        obtain ⟨bv, hbv, brest, hbrest, heq⟩ := hp1
        simp only [Option.some.injEq] at heq
        subst heq
        simp only [List.length_append] at hp2
        have h3 : mpSize v ≤ bv.length := by
          refine IH bv.length ?_ v bv (le_refl _) hbv
          omega
        have h4 : mpSizeList vs ≤ brest.length := ih brest hbrest (by omega)
        simp only [mpSizeList, List.length_append]
        exact max_le (by omega) (by omega)
    have hl := hinner l payload hpl (le_refl _)
    have hms : mpSize (MpVal.mpArr l) = mpSizeList l + 1 := by simp [mpSize]
    omega

theorem mpToLap_lapToMp (l : Lap) : mpToLap (lapToMp l) = some l := by
  obtain ⟨n, s, e, len⟩ := l
  rfl

theorem mapM_mpToLap_lapToMp (laps : List Lap) :
    (laps.map lapToMp).mapM mpToLap = some laps := by
  induction laps with
  | nil => rfl
  | cons l ls ih =>
    rw [List.map_cons, List.mapM_cons, mpToLap_lapToMp, ih]
    rfl

theorem unpackLaps_packLaps (laps : List Lap) (bs : List ℕ)
    (henc : packLaps laps = some bs) : unpackLaps bs = some laps := by
  unfold packLaps at henc
  unfold unpackLaps
  have hsz : mpSize (.mpArr (laps.map lapToMp)) ≤ bs.length :=
    encodeVal_size_le bs.length _ bs (le_refl _) henc
  have hdec := (mp_roundtrip bs.length).1 _ bs [] (by omega) henc
  rw [List.append_nil] at hdec
  rw [hdec]
  exact mapM_mpToLap_lapToMp laps


/-! ## Helper lemmas for the claims -/

theorem ofName_nameStr (s : EventStatus) : EventStatus.ofName s.nameStr = some s := by
  cases s <;> rfl

theorem date_id_isSome (t : Int) : ∃ s, date_id t = some s := by
  unfold date_id base_repr
  rw [if_neg (by omega), if_neg (by omega)]
  exact ⟨_, rfl⟩

theorem eventFromDict_default (tid : String) (t : Int) :
    eventFromDict ⟨none, tid, none, none, none⟩ t = some (newEventAt tid t) := by
  obtain ⟨s, hs⟩ := date_id_isSome t
  unfold eventFromDict newEventAt
  rw [hs]
  simp [EventStatus.ofName, openLap]

theorem total_work_append (xs ys : List Lap) :
    total_work (xs ++ ys) = total_work xs + total_work ys := by
  simp [total_work, List.filter_append]

theorem split_preserves_inv (cfg : Config) (e : Event) (t : Int) (ht : 0 < t)
    (hst : e.status = .Running) (hinv : LedgerInv cfg e.laps) :
    ∃ e2, e.split cfg t = .ok e2 ∧ e2.status = .Running ∧ LedgerInv cfg e2.laps := by
  obtain ⟨c, o, hlaps, ho, hc⟩ := hinv
  unfold Event.split
  rw [if_neg (by simp [hst])]
  rw [hlaps, List.getLast?_concat]
  dsimp only
  refine ⟨_, rfl, hst, ?_⟩
  rw [List.dropLast_concat]
  by_cases hlen : lapLen (closeLap t o) < cfg.split_min * 60
  · rw [if_pos hlen]
    exact ⟨c, openLap .Split t, rfl, rfl, hc⟩
  · rw [if_neg hlen]
    refine ⟨c ++ [closeLap t o], openLap .Split t, by simp, rfl, ?_⟩
    intro l hl
    rcases List.mem_append.mp hl with hl | hl
    · exact hc l hl
    · have : l = closeLap t o := by simpa using hl
      subst this
      constructor
      · show (t : Int) ≠ 0
        omega
      · intro _
        omega

theorem applySplits_inv (cfg : Config) : ∀ (ts : List Int) (e : Event),
    (∀ t ∈ ts, 0 < t) → e.status = .Running → LedgerInv cfg e.laps →
    (applySplits cfg e ts).status = .Running ∧
      LedgerInv cfg (applySplits cfg e ts).laps := by
  intro ts
  induction ts with
  | nil =>
    intro e _ h1 h2
    exact ⟨h1, h2⟩
  | cons t ts ih =>
    intro e hpos h1 h2
    obtain ⟨e2, hok, hst2, hinv2⟩ :=
      split_preserves_inv cfg e t (hpos t (by simp)) h1 h2
    unfold applySplits
    rw [hok]
    exact ih e2 (fun x hx => hpos x (by simp [hx])) hst2 hinv2

theorem nameForbidMatch_eq_not_allowed (c : Char) :
    nameForbidMatch c = !isAllowedChar c := by
  unfold nameForbidMatch isAllowedChar
  congr 1
  simp [Bool.or_comm, Bool.or_left_comm, Bool.or_assoc]

theorem any_forbid_eq_not_all_allowed (l : List Char) :
    l.any nameForbidMatch = !l.all isAllowedChar := by
  induction l with
  | nil => rfl
  | cons c cs ih =>
    simp [List.any_cons, List.all_cons, nameForbidMatch_eq_not_allowed c, ih,
      Bool.not_and]

/-! ## The claims -/

/-- C8: for every lap sequence the packed byte blob unpacks to the original
sequence unchanged: `unpack(pack(laps)) = laps` (stated for every sequence
`pack` accepts — `msgpack.packb` raises on integers outside `[-2^63, 2^64)`
instead of producing bytes). -/
theorem C8_pack_unpack_roundtrip (laps : List Lap) (bs : List ℕ)
    (henc : packLaps laps = some bs) : unpackLaps bs = some laps :=
  unpackLaps_packLaps laps bs henc

theorem C8_witness :
    packLaps [("Split", 0, 200, 200)]
        = some [145, 148, 165, 83, 112, 108, 105, 116, 0, 204, 200, 204, 200] ∧
    unpackLaps [145, 148, 165, 83, 112, 108, 105, 116, 0, 204, 200, 204, 200]
        = some [("Split", 0, 200, 200)] :=
  ⟨by decide, C8_pack_unpack_roundtrip [("Split", 0, 200, 200)] _ (by decide)⟩

/-- C4 counterexample: the empty name is accepted by `new_task` (the regex
`search` finds no forbidden character in `""`), while the claim's pattern
`[-_0-9a-zA-Z]+` requires a non-empty name and the claim says the empty
name is rejected. -/
theorem C4_counterexample :
    new_task "ab12" ⟨none, "", none⟩ = .ok ⟨"ab12", "", ""⟩ ∧
    matchesNamePlus "" = false :=
  ⟨rfl, rfl⟩

/-- C4 (amended): task creation succeeds exactly when every character of
the name is in `[-_0-9a-zA-Z]` — the empty name included — and fails with
the invalid-name error otherwise. -/
theorem C4_amended_name_validation (rid : String) (d : TaskDict) :
    (d.name.data.all isAllowedChar = true →
      new_task rid d = .ok ⟨d.id.getD rid, d.name, d.aliasStr.getD ""⟩) ∧
    (d.name.data.all isAllowedChar = false →
      new_task rid d = .error .invalidName) := by
  constructor
  · intro hall
    have hany : d.name.data.any nameForbidMatch = false := by
      rw [any_forbid_eq_not_all_allowed, hall]
      rfl
    simp [new_task, check_name, hany]
  · intro hall
    have hany : d.name.data.any nameForbidMatch = true := by
      rw [any_forbid_eq_not_all_allowed, hall]
      rfl
    simp [new_task, check_name, hany]

theorem C4_witness :
    ("a!b".data.all isAllowedChar = false →
      new_task "zz99" ⟨none, "a!b", none⟩ = .error .invalidName) ∧
    new_task "zz99" ⟨none, "a!b", none⟩ = .error .invalidName :=
  ⟨(C4_amended_name_validation "zz99" ⟨none, "a!b", none⟩).2,
   (C4_amended_name_validation "zz99" ⟨none, "a!b", none⟩).2 (by decide)⟩

/-- C6: every Event created by `start` from a dict holding only `task_id`
is `Running`, has `work = 0`, and has exactly one open Split lap
`("Split", t, 0, 0)` starting at the creation timestamp `t`. -/
theorem C6_initial_event (tid : String) (t : Int) :
    ∃ e, eventFromDict ⟨none, tid, none, none, none⟩ t = some e ∧
      e.status = .Running ∧ e.work = 0 ∧
      e.laps = [(LapName.Split.nameStr, t, 0, 0)] :=
  ⟨newEventAt tid t, eventFromDict_default tid t, rfl, rfl, rfl⟩

theorem baseRepLoop_cons (base num : ℕ) (h1 : num ≠ 0) (h2 : 2 ≤ base) :
    baseRepLoop base num
      = digitsChars.getD (num % base) '0' :: baseRepLoop base (num / base) := by
  conv_lhs => unfold baseRepLoop
  rw [dif_neg (by omega)]

theorem baseRepLoop_zero (base : ℕ) : baseRepLoop base 0 = [] := by
  unfold baseRepLoop
  rw [dif_pos (by omega)]

theorem digitsChars_getD_mem : ∀ m, m < 36 → digitsChars.getD m '0' ∈ digitsChars := by
  decide

/-- C9: for every draw `n` of `randrange(int('1000',36), int('zzzz',36)+1)`,
`rand_id` returns a string of exactly four base-36 characters (digits `0-9`
and lowercase `a-z`). -/
theorem C9_rand_id_shape (n : ℕ) (h1 : int36 "1000" ≤ n) (h2 : n ≤ int36 "zzzz") :
    ∃ s, rand_id n = some s ∧ s.length = 4 ∧ ∀ c ∈ s.data, c ∈ digitsChars := by
  have e1 : int36 "1000" = 46656 := by decide
  have e2 : int36 "zzzz" = 1679615 := by decide
  rw [e1] at h1
  rw [e2] at h2
  have hloop : baseRepLoop 36 n
      = digitsChars.getD (n % 36) '0' :: digitsChars.getD (n / 36 % 36) '0'
        :: digitsChars.getD (n / 36 / 36 % 36) '0'
        :: digitsChars.getD (n / 36 / 36 / 36 % 36) '0' :: [] := by
    rw [baseRepLoop_cons 36 n (by omega) (by omega)]
    rw [baseRepLoop_cons 36 (n / 36) (by omega) (by omega)]
    rw [baseRepLoop_cons 36 (n / 36 / 36) (by omega) (by omega)]
    rw [baseRepLoop_cons 36 (n / 36 / 36 / 36) (by omega) (by omega)]
    rw [show n / 36 / 36 / 36 / 36 = 0 by omega, baseRepLoop_zero]
  unfold rand_id base_repr
  rw [if_neg (by omega), if_neg (by omega)]
  dsimp only
  simp only [Int.ofNat_eq_natCast, Int.natAbs_ofNat, List.replicate_zero,
    List.append_nil]
  rw [hloop]
  rw [if_neg (show ¬((n : Int) < 0) by omega)]
  rw [if_neg (by simp)]
  refine ⟨_, rfl, ?_, ?_⟩
  · simp [String.length]
  · intro c hc
    simp only [String.mk, List.mem_reverse, List.mem_cons, List.not_mem_nil,
      or_false] at hc
    rcases hc with hc | hc | hc | hc <;> subst hc <;>
      exact digitsChars_getD_mem _ (by omega)

theorem C9_witness :
    int36 "1000" ≤ 46656 ∧ 46656 ≤ int36 "zzzz" ∧
    ∃ s, rand_id 46656 = some s ∧ s.length = 4 ∧ ∀ c ∈ s.data, c ∈ digitsChars :=
  ⟨by decide, by decide, C9_rand_id_shape 46656 (by decide) (by decide)⟩

/-- C2: after any sequence of `split()` calls (at positive timestamps) on a
Running event freshly created by `start`, the Lap Ledger has exactly one
open lap (`end = 0`) — the last element — and every closed Split lap is at
least `split_min * 60` seconds long (shorter ones are discarded). -/
theorem C2_split_ledger_invariant (cfg : Config) (tid : String) (t0 : Int)
    (ts : List Int) (hpos : ∀ t ∈ ts, 0 < t) :
    (applySplits cfg (newEventAt tid t0) ts).status = .Running ∧
    LedgerInv cfg (applySplits cfg (newEventAt tid t0) ts).laps := by
  refine applySplits_inv cfg ts (newEventAt tid t0) hpos rfl ?_
  exact ⟨[], openLap .Split t0, by simp [newEventAt], rfl, by simp⟩

theorem C2_witness :
    (applySplits default_cfg (newEventAt "t1" 100) [400, 500, 5000]).status
        = EventStatus.Running ∧
    LedgerInv default_cfg
      (applySplits default_cfg (newEventAt "t1" 100) [400, 500, 5000]).laps :=
  C2_split_ledger_invariant default_cfg "t1" 100 [400, 500, 5000] (by decide)

/-- C3: `resume()` at `t` on a Pausing event whose open Pause lap started at
`p` (with `d = t - p`) keeps the Pause lap in the ledger — closed with
`length = d` — exactly when `pause_min*60 ≤ d ≤ pause_max*60`, discards it
otherwise, contributes nothing to work either way, and returns to `Running`
with a new open Split lap at `t`. -/
theorem C3_resume_pause_filter (cfg : Config) (e : Event) (c : List Lap)
    (p t : Int) (hst : e.status = .Pausing)
    (hlaps : e.laps = c ++ [openLap .Pause p]) (hpt : p ≤ t) :
    ∃ e2, e.resume cfg t = .ok e2 ∧ e2.status = .Running ∧
      e2.laps = (if t - p < cfg.pause_min * 60 ∨ cfg.pause_max * 60 < t - p
                 then c else c ++ [(LapName.Pause.nameStr, p, t, t - p)])
                ++ [openLap .Split t] ∧
      total_work e2.laps = total_work c := by
  unfold Event.resume
  rw [if_neg (by simp [hst])]
  rw [hlaps, List.getLast?_concat]
  dsimp only
  rw [List.dropLast_concat]
  refine ⟨_, rfl, rfl, rfl, ?_⟩
  show total_work ((if lapLen (closeLap t (openLap .Pause p)) < cfg.pause_min * 60
      ∨ cfg.pause_max * 60 < lapLen (closeLap t (openLap .Pause p))
    then c else c ++ [closeLap t (openLap .Pause p)]) ++ [openLap LapName.Split t])
    = total_work c
  have hopen : total_work [openLap LapName.Split t] = 0 := by
    simp [total_work, openLap, lapName, lapStop, LapName.nameStr]
  have hpause : total_work [closeLap t (openLap .Pause p)] = 0 := by
    simp [total_work, closeLap, openLap, lapName, lapStop, LapName.nameStr]
  by_cases hd : lapLen (closeLap t (openLap .Pause p)) < cfg.pause_min * 60
      ∨ cfg.pause_max * 60 < lapLen (closeLap t (openLap .Pause p))
  · rw [if_pos hd, total_work_append, hopen]
    omega
  · rw [if_neg hd, total_work_append, total_work_append, hopen, hpause]
    omega

theorem C3_witness :
    ∃ e2, Event.resume ⟨"2s", "t1", EventStatus.Pausing,
        [("Split", 100, 400, 300), ("Pause", 400, 0, 0)], 0⟩ default_cfg 700
        = .ok e2 ∧
      e2.status = .Running ∧
      e2.laps = (if (700 : Int) - 400 < default_cfg.pause_min * 60
                  ∨ default_cfg.pause_max * 60 < (700 : Int) - 400
                 then [("Split", 100, 400, 300)]
                 else [("Split", 100, 400, 300)]
                   ++ [(LapName.Pause.nameStr, 400, 700, (700 : Int) - 400)])
                ++ [openLap .Split 700] ∧
      total_work e2.laps = total_work [("Split", 100, 400, 300)] :=
  C3_resume_pause_filter default_cfg
    ⟨"2s", "t1", EventStatus.Pausing,
      [("Split", 100, 400, 300), ("Pause", 400, 0, 0)], 0⟩
    [("Split", 100, 400, 300)] 400 700 rfl rfl (by omega)

/-- C5: `start` fails with the conflict error — and inserts nothing — when
the most recent stored event is not Stopped; when storage is empty or the
last event is Stopped it proceeds: it inserts a fresh event when the task
exists, and propagates the lookup error (inserting nothing) when not. -/
theorem C5_start_conflict (tasks : List Task) (store : List Event)
    (name : String) (t : Int) :
    (∀ e, store.getLast? = some e → e.status ≠ .Stopped →
        event_start tasks store name t = (store, some .notStopped)) ∧
    ((∀ e, store.getLast? = some e → e.status = .Stopped) →
      (∀ task, db_get_task_by_name tasks name = .ok task →
        event_start tasks store name t = (store ++ [newEventAt task.id t], none)) ∧
      (∀ err, db_get_task_by_name tasks name = .error err →
        event_start tasks store name t = (store, some err))) := by
  have hchk1 : ∀ e, store.getLast? = some e → e.status ≠ .Stopped →
      check_last_event_stopped store = .error .notStopped := by
    intro e he hne
    unfold check_last_event_stopped db_get_last_event
    rw [he]
    dsimp only
    rw [if_pos hne]
  have hchk2 : (∀ e, store.getLast? = some e → e.status = .Stopped) →
      check_last_event_stopped store = .ok () := by
    intro hall
    unfold check_last_event_stopped db_get_last_event
    cases hl : store.getLast? with
    | none => rfl
    | some e =>
      dsimp only
      rw [if_neg (by simp [hall e hl])]
  constructor
  · intro e he hne
    unfold event_start
    rw [hchk1 e he hne]
  · intro hall
    constructor
    · intro task htask
      unfold event_start
      rw [hchk2 hall]
      dsimp only
      rw [htask]
      dsimp only
      rw [eventFromDict_default]
      rfl
    · intro err herr
      unfold event_start
      rw [hchk2 hall]
      dsimp only
      rw [herr]

theorem C5_witness :
    event_start [⟨"ab12", "work", ""⟩]
        [⟨"2s", "ab12", EventStatus.Running, [("Split", 100, 0, 0)], 0⟩]
        "work" 500
      = ([⟨"2s", "ab12", EventStatus.Running, [("Split", 100, 0, 0)], 0⟩],
         some TTError.notStopped) :=
  (C5_start_conflict [⟨"ab12", "work", ""⟩]
    [⟨"2s", "ab12", EventStatus.Running, [("Split", 100, 0, 0)], 0⟩]
    "work" 500).1
    ⟨"2s", "ab12", EventStatus.Running, [("Split", 100, 0, 0)], 0⟩
    rfl (by decide)

/-- C7: when storage is empty or the most recent event is already Stopped,
`split` and `stop` change nothing in storage: no lap is mutated, no status
changes, nothing is deleted. -/
theorem C7_split_stop_noop (cfg : Config) (t : Int) (store : List Event)
    (h : store.getLast? = none
      ∨ ∃ e, store.getLast? = some e ∧ e.status = .Stopped) :
    util_event_split cfg t store = store ∧ util_event_stop cfg t store = store := by
  have hgle : ∃ err, get_last_event store = .error err := by
    rcases h with h | ⟨e, he, hst⟩
    · refine ⟨.noEvent, ?_⟩
      unfold get_last_event db_get_last_event
      rw [h]
    · refine ⟨.stoppedEvent, ?_⟩
      unfold get_last_event db_get_last_event
      rw [he]
      dsimp only
      rw [if_pos hst]
  obtain ⟨err, herr⟩ := hgle
  constructor
  · unfold util_event_split
    rw [herr]
  · unfold util_event_stop
    rw [herr]

theorem C7_witness :
    util_event_split default_cfg 900
        [⟨"2s", "ab12", EventStatus.Stopped, [("Split", 100, 400, 300)], 0⟩]
      = [⟨"2s", "ab12", EventStatus.Stopped, [("Split", 100, 400, 300)], 0⟩] ∧
    util_event_stop default_cfg 900
        [⟨"2s", "ab12", EventStatus.Stopped, [("Split", 100, 400, 300)], 0⟩]
      = [⟨"2s", "ab12", EventStatus.Stopped, [("Split", 100, 400, 300)], 0⟩] :=
  C7_split_stop_noop default_cfg 900
    [⟨"2s", "ab12", EventStatus.Stopped, [("Split", 100, 400, 300)], 0⟩]
    (Or.inr ⟨⟨"2s", "ab12", EventStatus.Stopped, [("Split", 100, 400, 300)], 0⟩,
      rfl, rfl⟩)

/-- C1 (code bug): `util.py:169` compares `event.work` (seconds) against
`cfg["split_min"]` (documented as minutes in `model.py`) without the `* 60`
conversion.  Evaluated at the failing input — an event whose single Split
lap runs from t=100 to t=400, `split_min = 5` — `stop` computes
`work = 300 ≤ 5 * 60`, so the claim (and spec §4.2) require deletion, yet
the event is kept in storage because `300 ≤ 5` is false.  The same guard
also disagrees with the claim's `work = 200` scenario: `200 ≤ 300` but
`¬(200 ≤ 5)`. -/
theorem C1_stop_deletion_threshold_eval :
    (Event.stop ⟨"2s", "t1", .Running, [("Split", 100, 0, 0)], 0⟩ default_cfg 400
      = .ok ⟨"2s", "t1", .Stopped, [("Split", 100, 400, 300)], 300⟩) ∧
    (util_event_stop default_cfg 400
        [⟨"2s", "t1", .Running, [("Split", 100, 0, 0)], 0⟩]
      = [⟨"2s", "t1", .Stopped, [("Split", 100, 400, 300)], 0⟩]) ∧
    ((300 : Int) ≤ default_cfg.split_min * 60) ∧
    ¬((300 : Int) ≤ default_cfg.split_min) ∧
    ((200 : Int) ≤ default_cfg.split_min * 60) ∧
    ¬((200 : Int) ≤ default_cfg.split_min) := by
  refine ⟨?_, ?_, by decide, by decide, by decide, by decide⟩
  · rfl
  · rfl

/-- C10: `to_dict` always writes `"work": 0` (model.py:145) while the other
fields reflect the event, so rebuilding an Event from its dict restores id,
task id, status and laps but always resets `work` to 0 — a nonzero `work`
never survives the round trip. -/
theorem C10_to_dict_zeroes_work (e : Event) (t : Int) (d : EventDict)
    (henc : e.toDict = some d) :
    d.work = some 0 ∧ eventFromDict d t = some { e with work := 0 } := by
  unfold Event.toDict at henc
  simp only [Option.bind_eq_bind, Option.pure_def, Option.bind_eq_some] at henc
  obtain ⟨bs, hbs, hd⟩ := henc
  simp only [Option.some.injEq] at hd
  subst hd
  refine ⟨rfl, ?_⟩
  unfold eventFromDict
  dsimp only
  rw [Option.getD_some, ofName_nameStr]
  have hne : bs ≠ [] := encodeVal_ne_nil _ _ hbs
  have hne2 : bs.isEmpty = false := by simpa using hne
  rw [hne2, unpackLaps_packLaps e.laps bs hbs]
  cases e
  simp

theorem C10_witness :
    (Event.toDict ⟨"2s", "t1", .Running, [("Split", 100, 0, 0)], 77⟩
      = some ⟨some "2s", "t1", some "Running",
          some [145, 148, 165, 83, 112, 108, 105, 116, 100, 0, 0], some 0⟩) ∧
    ((⟨some "2s", "t1", some "Running",
        some [145, 148, 165, 83, 112, 108, 105, 116, 100, 0, 0],
        some 0⟩ : EventDict).work = some 0) ∧
    (eventFromDict ⟨some "2s", "t1", some "Running",
        some [145, 148, 165, 83, 112, 108, 105, 116, 100, 0, 0], some 0⟩ 900
      = some ⟨"2s", "t1", .Running, [("Split", 100, 0, 0)], 0⟩) := by
  refine ⟨by decide, ?_, ?_⟩
  · exact (C10_to_dict_zeroes_work
      ⟨"2s", "t1", .Running, [("Split", 100, 0, 0)], 77⟩ 900 _ (by decide)).1
  · exact (C10_to_dict_zeroes_work
      ⟨"2s", "t1", .Running, [("Split", 100, 0, 0)], 77⟩ 900 _ (by decide)).2

end CTT
